import Mathlib

/-!
Verification of the `map_vec` crate: `Map<K, V>` and `Set<T>` backed by a
single growable vector (`src/map.rs`, `src/set.rs`).  Vectors are embedded as
`List`, the generic Rust `Eq` bound as an explicit Boolean comparison
function, and mutating methods as functions returning the new container
(paired with the Rust return value).  The comparison direction of every scan
(lookup key versus stored key) follows the source line by line.
-/

namespace MapVec

/-- Boolean equality test derived from decidable equality; models a Rust
`Eq` implementation that coincides with structural equality. -/
def eqb {α : Type} [DecidableEq α] (a b : α) : Bool := decide (a = b)

/-- Rust `Iterator::position`: the index of the first element satisfying `p`. -/
def findPos {α : Type} (p : α → Bool) : List α → Option Nat
  | [] => none
  | x :: rest => if p x then some 0 else (findPos p rest).map (· + 1)

/-- Rust `Vec::swap_remove(pos)`: returns the element at `pos` after
overwriting that slot with the last element and shortening the vector by one;
`none` when `pos` is out of bounds (where the Rust call would panic). -/
def swapRemove {α : Type} (l : List α) (pos : Nat) : Option (α × List α) :=
  match l[pos]?, l.getLast? with
  | some x, some last => some (x, (l.set pos last).dropLast)
  | _, _ => none

variable {K V T : Type}

/-- Rust `map_vec::Map`: `struct Map<K, V> { backing: Vec<(K, V)> }`. -/
structure Map (K V : Type) where
  backing : List (K × V)

def Map.empty : Map K V := ⟨[]⟩

/-- Rust `Map::len`. -/
def Map.len (m : Map K V) : Nat := m.backing.length

/-- Rust `Map::get`: linear scan `find(|(k, _)| key.eq(k.borrow()))` — lookup key
on the left — returning the first matching pair's value. -/
def Map.get (keq : K → K → Bool) (m : Map K V) (key : K) : Option V :=
  (m.backing.find? (fun p => keq key p.1)).map Prod.snd

/-- Rust `Map::contains_key`: `self.keys().any(|k| key.eq(k.borrow()))`. -/
def Map.contains_key (keq : K → K → Bool) (m : Map K V) (key : K) : Bool :=
  m.backing.any (fun p => keq key p.1)

/-- The scan performed by `Map::insert` through `get_mut` (predicate
`key.eq(k.borrow())`): replace the value of the first pair whose stored key
matches — keeping the stored key and the pair's position, and returning the
prior value — or append `(key, value)` when no pair matches. -/
def insertScan (keq : K → K → Bool) (key : K) (value : V) :
    List (K × V) → Option V × List (K × V)
  | [] => (none, [(key, value)])
  | (k, v) :: rest =>
    if keq key k then (some v, (k, value) :: rest)
    else
      let r := insertScan keq key value rest
      (r.1, (k, v) :: r.2)

/-- Rust `Map::insert`. -/
def Map.insert (keq : K → K → Bool) (m : Map K V) (key : K) (value : V) :
    Option V × Map K V :=
  let r := insertScan keq key value m.backing
  (r.1, ⟨r.2⟩)

/-- Rust `Map::remove_entry`: `position(|(k, _)| key.eq(k.borrow()))`, then
`Vec::swap_remove`; the map is left unchanged when the key is absent. -/
def Map.remove_entry (keq : K → K → Bool) (m : Map K V) (key : K) :
    Option (K × V) × Map K V :=
  match findPos (fun p => keq key p.1) m.backing with
  | none => (none, m)
  | some pos =>
    match swapRemove m.backing pos with
    | none => (none, m)
    | some (x, l) => (some x, ⟨l⟩)

/-- Rust `Map::remove` = `self.remove_entry(key).map(|(_, v)| v)`. -/
def Map.remove (keq : K → K → Bool) (m : Map K V) (key : K) :
    Option V × Map K V :=
  ((Map.remove_entry keq m key).1.map Prod.snd, (Map.remove_entry keq m key).2)

/-- The result of `Map::entry`: an occupied handle records the position and
the stored pair found there; a vacant handle holds the not-yet-inserted key. -/
inductive EntryView (K V : Type) where
  | occupied (pos : Nat) (k : K) (v : V)
  | vacant (key : K)

/-- The scan inside `Map::entry`: `position(|(k, _)| *k == key)` — stored key
on the left — together with the pair found at that position. -/
def entryScan (keq : K → K → Bool) (key : K) : List (K × V) → EntryView K V
  | [] => .vacant key
  | (k, v) :: rest =>
    if keq k key then .occupied 0 k v
    else
      match entryScan keq key rest with
      | .occupied pos k' v' => .occupied (pos + 1) k' v'
      | .vacant key' => .vacant key'

/-- Rust `Map::entry`. -/
def Map.entry (keq : K → K → Bool) (m : Map K V) (key : K) : EntryView K V :=
  entryScan keq key m.backing

/-- Rust `Entry::or_insert(default)`: an occupied entry yields its existing value
(`OccupiedEntry::into_mut`) leaving the map unchanged; a vacant entry pushes
`(key, default)` onto the backing vector (`VacantEntry::insert`). -/
def Map.entryOrInsert (keq : K → K → Bool) (m : Map K V) (key : K)
    (default : V) : V × Map K V :=
  match Map.entry keq m key with
  | .occupied _ _ v => (v, m)
  | .vacant k => (default, ⟨m.backing ++ [(k, default)]⟩)

/-- Rust `OccupiedEntry::remove` reached through `Map::entry`:
`self.backing.remove(self.entry_pos)` — shift removal, not swap removal —
returning the removed pair's value; `none` when the entry is vacant. -/
def Map.entryRemove (keq : K → K → Bool) (m : Map K V) (key : K) :
    Option (V × Map K V) :=
  match Map.entry keq m key with
  | .occupied pos _ v => some (v, ⟨m.backing.eraseIdx pos⟩)
  | .vacant _ => none

/-- Rust `impl Index for Map`: `self.get(key).expect("no entry found for key")`;
the panic on an absent key is modelled as `Except.error`. -/
def Map.indexOp (keq : K → K → Bool) (m : Map K V) (key : K) :
    Except Unit V :=
  match Map.get keq m key with
  | some v => Except.ok v
  | none => Except.error ()

/-- The serde decode path (`MapVisitor::visit_map`): starting from an empty
map, repeatedly `map.entry(key).or_insert(value)` over the incoming pairs. -/
def Map.decodeFromPairs (keq : K → K → Bool) (pairs : List (K × V)) :
    Map K V :=
  pairs.foldl (fun m p => (Map.entryOrInsert keq m p.1 p.2).2) ⟨[]⟩

/-- A sequence of `Map::insert` calls applied in order. -/
def Map.insertMany (keq : K → K → Bool) (m : Map K V) (ops : List (K × V)) :
    Map K V :=
  ops.foldl (fun m p => (Map.insert keq m p.1 p.2).2) m

/-- Rust `Map::retain`: `self.backing.retain_mut(|(k, v)| f(k, v))`, where the
closure may also rewrite the value; modelled as the closure returning the keep
decision together with the (possibly updated) value. -/
def Map.retain (f : K → V → Bool × V) (m : Map K V) : Map K V :=
  ⟨m.backing.filterMap (fun p =>
    let r := f p.1 p.2
    if r.1 then some (p.1, r.2) else none)⟩

/-- Rust `Map::clear`. -/
def Map.clear (_m : Map K V) : Map K V := ⟨[]⟩

/-- The element-wise list equality underlying `Vec`'s derived `PartialEq`. -/
def listEq {α : Type} (eq : α → α → Bool) : List α → List α → Bool
  | [], [] => true
  | a :: la, b :: lb => eq a b && listEq eq la lb
  | _, _ => false

/-- The derived `PartialEq` on `(K, V)` pairs: both components equal. -/
def pairEq (keq : K → K → Bool) (veq : V → V → Bool) (a b : K × V) : Bool :=
  keq a.1 b.1 && veq a.2 b.2

/-- Rust `Map`'s `derive(PartialEq)`: positional equality of the backing vectors. -/
def Map.eqOp (keq : K → K → Bool) (veq : V → V → Bool) (a b : Map K V) :
    Bool :=
  listEq (pairEq keq veq) a.backing b.backing

/-- Rust `map_vec::Set`: `struct Set<T> { backing: Vec<T> }`. -/
structure Set (T : Type) where
  backing : List T

def Set.empty : Set T := ⟨[]⟩

/-- Rust `Set::len`. -/
def Set.len (s : Set T) : Nat := s.backing.length

/-- Rust `Set::contains`: `any(|v| value.eq(v.borrow()))` — lookup value on the
left. -/
def Set.contains (teq : T → T → Bool) (s : Set T) (value : T) : Bool :=
  s.backing.any (fun v => teq value v)

/-- Rust `Set::get`: `find(|v| value.eq((*v).borrow()))`. -/
def Set.get (teq : T → T → Bool) (s : Set T) (value : T) : Option T :=
  s.backing.find? (fun v => teq value v)

/-- Rust `Set::insert`: `!self.backing.iter().any(|v| *v == value) && { push; true }`
— stored value on the left of the comparison; no replacement on a hit. -/
def Set.insert (teq : T → T → Bool) (s : Set T) (value : T) : Bool × Set T :=
  if s.backing.any (fun v => teq v value) then (false, s)
  else (true, ⟨s.backing ++ [value]⟩)

/-- Rust `Set::take`: `position(|v| value.eq(v.borrow()))`, then
`Vec::swap_remove`; the set is left unchanged when the value is absent. -/
def Set.take (teq : T → T → Bool) (s : Set T) (value : T) :
    Option T × Set T :=
  match findPos (fun v => teq value v) s.backing with
  | none => (none, s)
  | some pos =>
    match swapRemove s.backing pos with
    | none => (none, s)
    | some (x, l) => (some x, ⟨l⟩)

/-- Rust `Set::remove` = `self.take(value).is_some()`. -/
def Set.remove (teq : T → T → Bool) (s : Set T) (value : T) : Bool × Set T :=
  ((Set.take teq s value).1.isSome, (Set.take teq s value).2)

/-- The scan inside `Set::replace`: `find(|v| **v == value)` — stored element
on the left — replacing the first match with `value` and returning the
displaced element; push `value` when there is no match. -/
def replaceScan (teq : T → T → Bool) (value : T) : List T → Option T × List T
  | [] => (none, [value])
  | v :: rest =>
    if teq v value then (some v, value :: rest)
    else
      let r := replaceScan teq value rest
      (r.1, v :: r.2)

/-- Rust `Set::replace`. -/
def Set.replace (teq : T → T → Bool) (s : Set T) (value : T) :
    Option T × Set T :=
  let r := replaceScan teq value s.backing
  (r.1, ⟨r.2⟩)

/-- Rust `Set::get_or_insert`: return the first matching element if present, else
push `value` and return the newly pushed element. -/
def Set.get_or_insert (teq : T → T → Bool) (s : Set T) (value : T) :
    T × Set T :=
  match Set.get teq s value with
  | some v => (v, s)
  | none => (value, ⟨s.backing ++ [value]⟩)

/-- Rust `Set::retain`. -/
def Set.retain (p : T → Bool) (s : Set T) : Set T := ⟨s.backing.filter p⟩

/-- Rust `Set::clear`. -/
def Set.clear (_s : Set T) : Set T := ⟨[]⟩

/-- The sequence produced by consuming `Difference::next` to exhaustion: the
loop yields each scanned element not contained (by `Set::contains`) in
`other`, in scan order. -/
def differenceList (teq : T → T → Bool) : List T → Set T → List T
  | [], _ => []
  | x :: rest, other =>
    if Set.contains teq other x then differenceList teq rest other
    else x :: differenceList teq rest other

/-- Rust `Set::difference(A, B)` consumed forward. -/
def Set.difference (teq : T → T → Bool) (a b : Set T) : List T :=
  differenceList teq a.backing b

/-- Rust `Set::union(A, B)` consumed forward:
`self.iter().chain(other.difference(self))`. -/
def Set.union (teq : T → T → Bool) (a b : Set T) : List T :=
  a.backing ++ differenceList teq b.backing a

/-- Rust `Set::is_subset`:
`self.len() <= other.len() && self.difference(other).count() == 0`. -/
def Set.is_subset (teq : T → T → Bool) (a b : Set T) : Bool :=
  decide (Set.len a ≤ Set.len b) && (Set.difference teq a b).length == 0

/-- Rust `Set`'s `derive(PartialEq)`: positional equality of the backing vectors. -/
def Set.eqOp (teq : T → T → Bool) (a b : Set T) : Bool :=
  listEq teq a.backing b.backing

/-- The map's uniqueness invariant: no stored key is `keq`-equal to any later
stored key. -/
def Map.KeyUnique (keq : K → K → Bool) (m : Map K V) : Prop :=
  m.backing.Pairwise (fun a b => keq a.1 b.1 = false)

/-- The set's uniqueness invariant. -/
def Set.Unique (teq : T → T → Bool) (s : Set T) : Prop :=
  s.backing.Pairwise (fun a b => teq a b = false)

/-- Maps reachable from `new`/`with_capacity`/`default` by the public
content-mutating operations (capacity operations leave contents unchanged;
`extend`, `from_iter` and `From` are sequences of `insert`). -/
inductive Map.Reach (keq : K → K → Bool) : Map K V → Prop where
  | empty : Map.Reach keq ⟨[]⟩
  | insert (m : Map K V) (k : K) (v : V) :
      Map.Reach keq m → Map.Reach keq (Map.insert keq m k v).2
  | remove_entry (m : Map K V) (k : K) :
      Map.Reach keq m → Map.Reach keq (Map.remove_entry keq m k).2
  | entryOrInsert (m : Map K V) (k : K) (v : V) :
      Map.Reach keq m → Map.Reach keq (Map.entryOrInsert keq m k v).2
  | entryRemove (m m' : Map K V) (k : K) (v : V) :
      Map.Reach keq m → Map.entryRemove keq m k = some (v, m') →
      Map.Reach keq m'
  | retain (m : Map K V) (f : K → V → Bool × V) :
      Map.Reach keq m → Map.Reach keq (Map.retain f m)
  | clear (m : Map K V) :
      Map.Reach keq m → Map.Reach keq (Map.clear m)

/-- Sets reachable from `new`/`with_capacity`/`default` by the public
content-mutating operations. -/
inductive Set.Reach (teq : T → T → Bool) : Set T → Prop where
  | empty : Set.Reach teq ⟨[]⟩
  | insert (s : Set T) (v : T) :
      Set.Reach teq s → Set.Reach teq (Set.insert teq s v).2
  | take (s : Set T) (v : T) :
      Set.Reach teq s → Set.Reach teq (Set.take teq s v).2
  | replace (s : Set T) (v : T) :
      Set.Reach teq s → Set.Reach teq (Set.replace teq s v).2
  | get_or_insert (s : Set T) (v : T) :
      Set.Reach teq s → Set.Reach teq (Set.get_or_insert teq s v).2
  | retain (s : Set T) (p : T → Bool) :
      Set.Reach teq s → Set.Reach teq (Set.retain p s)
  | clear (s : Set T) :
      Set.Reach teq s → Set.Reach teq (Set.clear s)

/-! ### Helper lemmas about the scan and removal primitives -/

theorem findPos_cons {α : Type} {p : α → Bool} {a : α} {rest : List α} :
    findPos p (a :: rest)
      = if p a then some 0 else (findPos p rest).map (· + 1) := rfl

theorem findPos_eq_none {α : Type} {p : α → Bool} {l : List α} :
    findPos p l = none ↔ ∀ x ∈ l, p x = false := by
  induction l with
  | nil => simp [findPos]
  | cons a rest ih =>
    rw [findPos_cons]
    cases hpa : p a
    · simp [hpa, Option.map_eq_none', ih]
    · simp [hpa]

theorem findPos_some_getElem {α : Type} {p : α → Bool} {l : List α}
    {pos : Nat} (h : findPos p l = some pos) :
    ∃ x, l[pos]? = some x ∧ p x = true := by
  induction l generalizing pos with
  | nil => simp [findPos] at h
  | cons a rest ih =>
    rw [findPos_cons] at h
    cases hpa : p a
    · rw [hpa] at h
      simp only [Bool.false_eq_true, if_false] at h
      rcases hq : findPos p rest with _ | q
      · rw [hq] at h
        simp at h
      · rw [hq] at h
        simp only [Option.map_some'] at h
        obtain rfl : q + 1 = pos := by simpa using h
        obtain ⟨x, hx, hpx⟩ := ih hq
        exact ⟨x, by simpa using hx, hpx⟩
    · rw [hpa] at h
      simp only [if_true] at h
      obtain rfl : (0 : Nat) = pos := by simpa using h
      exact ⟨a, by simp, hpa⟩

theorem findPos_lt_length {α : Type} {p : α → Bool} {l : List α} {pos : Nat}
    (h : findPos p l = some pos) : pos < l.length := by
  obtain ⟨x, hx, -⟩ := findPos_some_getElem h
  exact (List.getElem?_eq_some_iff.1 hx).1

theorem findPos_first {α : Type} {p : α → Bool} {l : List α} {pos : Nat}
    (h : findPos p l = some pos) :
    ∀ i < pos, ∀ y, l[i]? = some y → p y = false := by
  induction l generalizing pos with
  | nil => simp [findPos] at h
  | cons a rest ih =>
    rw [findPos_cons] at h
    cases hpa : p a
    · rw [hpa] at h
      simp only [Bool.false_eq_true, if_false] at h
      rcases hq : findPos p rest with _ | q
      · rw [hq] at h
        simp at h
      · rw [hq] at h
        simp only [Option.map_some'] at h
        obtain rfl : q + 1 = pos := by simpa using h
        intro i hi y hy
        match i with
        | 0 =>
          simp only [List.getElem?_cons_zero] at hy
          cases hy
          exact hpa
        | j + 1 =>
          simp only [List.getElem?_cons_succ] at hy
          exact ih hq j (by omega) y hy
    · rw [hpa] at h
      simp only [if_true] at h
      obtain rfl : (0 : Nat) = pos := by simpa using h
      intro i hi
      omega

theorem find?_eq_of_findPos {α : Type} {p : α → Bool} {l : List α}
    {pos : Nat} (h : findPos p l = some pos) : l.find? p = l[pos]? := by
  induction l generalizing pos with
  | nil => simp [findPos] at h
  | cons a rest ih =>
    rw [findPos_cons] at h
    cases hpa : p a
    · rw [hpa] at h
      simp only [Bool.false_eq_true, if_false] at h
      rcases hq : findPos p rest with _ | q
      · rw [hq] at h
        simp at h
      · rw [hq] at h
        simp only [Option.map_some'] at h
        obtain rfl : q + 1 = pos := by simpa using h
        simpa [List.find?_cons, hpa] using ih hq
    · rw [hpa] at h
      simp only [if_true] at h
      obtain rfl : (0 : Nat) = pos := by simpa using h
      simp [List.find?_cons, hpa]

theorem findPos_any {α : Type} {p : α → Bool} {l : List α} :
    (findPos p l).isSome = l.any p := by
  induction l with
  | nil => simp [findPos]
  | cons a rest ih =>
    rw [findPos_cons]
    cases hpa : p a
    · simp only [hpa, Bool.false_eq_true, if_false, List.any_cons,
        Bool.false_or, ← ih]
      rcases findPos p rest with _ | q <;> simp
    · simp [hpa]

theorem swapRemove_some_elim {α : Type} {l : List α} {pos : Nat} {x : α}
    {l' : List α} (h : swapRemove l pos = some (x, l')) :
    l[pos]? = some x ∧
      ∃ last, l.getLast? = some last ∧ l' = (l.set pos last).dropLast := by
  rcases hx : l[pos]? with _ | a <;> rcases hl : l.getLast? with _ | b <;>
    simp [swapRemove, hx, hl] at h
  obtain ⟨h1, h2⟩ := h
  subst h1
  subst h2
  exact ⟨rfl, b, rfl, rfl⟩

theorem swapRemove_isSome {α : Type} {l : List α} {pos : Nat}
    (h : pos < l.length) : ∃ x l', swapRemove l pos = some (x, l') := by
  have hne : l ≠ [] := by
    intro hl
    rw [hl] at h
    simp at h
  rcases hx : l[pos]? with _ | a
  · rw [List.getElem?_eq_none_iff] at hx
    omega
  · refine ⟨a, (l.set pos (l.getLast hne)).dropLast, ?_⟩
    unfold swapRemove
    rw [hx, List.getLast?_eq_getLast l hne]

theorem swapRemove_length {α : Type} {l : List α} {pos : Nat} {x : α}
    {l' : List α} (h : swapRemove l pos = some (x, l')) :
    l'.length = l.length - 1 := by
  obtain ⟨-, last, -, rfl⟩ := swapRemove_some_elim h
  simp [List.length_dropLast, List.length_set]

theorem swapRemove_getElem? {α : Type} {l : List α} {pos : Nat} {x : α}
    {l' : List α} (h : swapRemove l pos = some (x, l')) (i : Nat) :
    l'[i]? = if i < l.length - 1 then
      (if i = pos then l[l.length - 1]? else l[i]?) else none := by
  obtain ⟨hx, last, hlast, rfl⟩ := swapRemove_some_elim h
  have hpos : pos < l.length := (List.getElem?_eq_some_iff.1 hx).1
  have hlast' : l[l.length - 1]? = some last := by
    rw [← List.getLast?_eq_getElem?]
    exact hlast
  rw [List.getElem?_dropLast, List.length_set]
  by_cases hi : i < l.length - 1
  · rw [if_pos hi, if_pos hi, List.getElem?_set]
    by_cases hip : i = pos
    · subst hip
      simp [hpos, hlast']
    · rw [if_neg (fun hc => hip hc.symm), if_neg hip]
  · rw [if_neg hi, if_neg hi]

theorem getLast_cons_perm {α : Type} {l : List α} (h : l ≠ []) :
    (l.getLast h :: l.dropLast).Perm l := by
  conv_rhs => rw [← List.dropLast_append_getLast h]
  exact (List.perm_append_singleton _ _).symm

theorem swapRemove_cons_perm {α : Type} {l : List α} {pos : Nat} {x : α}
    {l' : List α} (h : swapRemove l pos = some (x, l')) : (x :: l').Perm l := by
  induction l generalizing pos x l' with
  | nil => simp [swapRemove] at h
  | cons a rest ih =>
    obtain ⟨hx, last, hlast, rfl⟩ := swapRemove_some_elim h
    match pos with
    | 0 =>
      simp only [List.getElem?_cons_zero] at hx
      obtain rfl : a = x := by simpa using hx
      rcases rest with _ | ⟨b, rest'⟩
      · simp [List.set]
      · rw [List.getLast?_cons_cons,
          List.getLast?_eq_getLast (b :: rest') (by simp)] at hlast
        have hlast' : (b :: rest').getLast (by simp) = last :=
          Option.some.inj hlast
        have hd : ((a :: b :: rest').set 0 last).dropLast
            = last :: (b :: rest').dropLast := by
          rw [List.set_cons_zero, List.dropLast_cons₂]
        rw [hd, ← hlast']
        exact List.Perm.cons a (getLast_cons_perm (by simp))
    | p + 1 =>
      simp only [List.getElem?_cons_succ] at hx
      have hrne : rest ≠ [] := by
        intro hr
        rw [hr] at hx
        simp at hx
      have hgl : (a :: rest).getLast? = rest.getLast? := by
        rcases rest with _ | ⟨b, rest'⟩
        · exact absurd rfl hrne
        · exact List.getLast?_cons_cons
      rw [hgl] at hlast
      have hsne : rest.set p last ≠ [] := by
        intro hc
        have := congrArg List.length hc
        simp [List.length_set] at this
        rw [this] at hrne
        simp at hrne
      have hd : ((a :: rest).set (p + 1) last).dropLast
          = a :: (rest.set p last).dropLast := by
        rw [List.set_cons_succ]
        exact List.dropLast_cons_of_ne_nil hsne
      rw [hd]
      have hsub : swapRemove rest p = some (x, (rest.set p last).dropLast) := by
        unfold swapRemove
        rw [hx, hlast]
      have hperm := ih hsub
      exact (List.Perm.swap a x _).trans (List.Perm.cons a hperm)

/-! ### Helper lemmas about the insert scan -/

theorem insertScan_of_notFound {keq : K → K → Bool} {key : K} {value : V} :
    ∀ {l : List (K × V)}, (∀ x ∈ l, keq key x.1 = false) →
      insertScan keq key value l = (none, l ++ [(key, value)])
  | [], _ => by simp [insertScan]
  | (k, v) :: rest, h => by
    have hk : keq key k = false := by simpa using h (k, v) (by simp)
    have hrest : ∀ x ∈ rest, keq key x.1 = false :=
      fun x hx => h x (List.mem_cons_of_mem _ hx)
    simp [insertScan, hk, insertScan_of_notFound hrest]

theorem insertScan_of_found {keq : K → K → Bool} {key : K} {value : V} :
    ∀ {l : List (K × V)} {pos : Nat} {k0 : K} {v0 : V},
      findPos (fun p => keq key p.1) l = some pos →
      l[pos]? = some (k0, v0) →
      insertScan keq key value l = (some v0, l.set pos (k0, value))
  | [], pos, _, _, h, _ => by simp [findPos] at h
  | (k, v) :: rest, pos, k0, v0, h, hget => by
    rw [findPos_cons] at h
    cases hpa : keq key k
    · simp only [hpa, Bool.false_eq_true, if_false] at h
      rcases hq : findPos (fun p => keq key p.1) rest with _ | q
      · rw [hq] at h
        simp at h
      · rw [hq] at h
        simp only [Option.map_some'] at h
        obtain rfl : q + 1 = pos := by simpa using h
        simp only [List.getElem?_cons_succ] at hget
        simp [insertScan, hpa, insertScan_of_found hq hget,
          List.set_cons_succ]
    · simp only [hpa, if_true] at h
      obtain rfl : (0 : Nat) = pos := by simpa using h
      simp only [List.getElem?_cons_zero] at hget
      obtain ⟨rfl, rfl⟩ : k = k0 ∧ v = v0 := by
        simpa [Prod.ext_iff] using hget
      simp [insertScan, hpa, List.set_cons_zero]

theorem insertScan_keys (keq : K → K → Bool) (key : K) (value : V) :
    ∀ (l : List (K × V)),
      ((insertScan keq key value l).2).map Prod.fst
        = if l.any (fun p => keq key p.1) then l.map Prod.fst
          else l.map Prod.fst ++ [key]
  | [] => by simp [insertScan]
  | (k, v) :: rest => by
    cases hpa : keq key k
    · have ih := insertScan_keys keq key value rest
      cases h2 : rest.any (fun p => keq key p.1)
      · rw [h2] at ih
        simp [insertScan, hpa, ih, h2]
      · rw [h2] at ih
        simp [insertScan, hpa, ih, h2]
    · simp [insertScan, hpa]

theorem insertScan_length (keq : K → K → Bool) (key : K) (value : V)
    (l : List (K × V)) :
    ((insertScan keq key value l).2).length
      = if l.any (fun p => keq key p.1) then l.length else l.length + 1 := by
  have h := congrArg List.length (insertScan_keys keq key value l)
  rw [List.length_map] at h
  rw [h]
  cases l.any (fun p => keq key p.1) <;> simp

theorem map_fst_set {l : List (K × V)} {pos : Nat} {k0 : K} {v0 v1 : V}
    (h : l[pos]? = some (k0, v0)) :
    (l.set pos (k0, v1)).map Prod.fst = l.map Prod.fst := by
  induction l generalizing pos with
  | nil => simp at h
  | cons a rest ih =>
    match pos with
    | 0 =>
      simp only [List.getElem?_cons_zero] at h
      obtain rfl : a = (k0, v0) := by simpa using h
      simp [List.set_cons_zero]
    | p + 1 =>
      simp only [List.getElem?_cons_succ] at h
      simp [List.set_cons_succ, ih h]

theorem insertScan_find?_eqb [DecidableEq K] (k k' : K) (v : V) :
    ∀ (l : List (K × V)),
      ((insertScan eqb k v l).2.find? (fun p => eqb k' p.1)).map Prod.snd
        = if k' = k then some v
          else (l.find? (fun p => eqb k' p.1)).map Prod.snd
  | [] => by
    by_cases h : k' = k
    · subst h
      simp [insertScan, List.find?_cons, eqb]
    · have hb : eqb k' k = false := by simp [eqb, h]
      simp [insertScan, List.find?_cons, hb, h]
  | (ka, va) :: rest => by
    have ih := insertScan_find?_eqb k k' v rest
    by_cases hka : k = ka
    · subst hka
      have hb : eqb k k = true := by simp [eqb]
      by_cases h' : k' = k
      · subst h'
        simp [insertScan, hb, List.find?_cons]
      · have hb' : eqb k' k = false := by simp [eqb, h']
        simp [insertScan, hb, hb', List.find?_cons, h']
    · have hb : eqb k ka = false := by simp [eqb, hka]
      by_cases h' : k' = ka
      · subst h'
        have hne : ¬k' = k := fun hc => hka hc.symm
        have hb' : eqb k' k' = true := by simp [eqb]
        simp [insertScan, hb, hb', List.find?_cons, hne]
      · have hb' : eqb k' ka = false := by simp [eqb, h']
        simp [insertScan, hb, hb', List.find?_cons, h', ih]

theorem get_insert_eqb [DecidableEq K] (m : Map K V) (k k' : K) (v : V) :
    Map.get eqb (Map.insert eqb m k v).2 k'
      = if k' = k then some v else Map.get eqb m k' := by
  simpa [Map.get, Map.insert] using insertScan_find?_eqb k k' v m.backing

theorem len_insert_eqb [DecidableEq K] (m : Map K V) (k : K) (v : V) :
    (Map.insert eqb m k v).2.len
      = if Map.contains_key eqb m k then m.len else m.len + 1 := by
  simp only [Map.len, Map.insert, Map.contains_key]
  rw [insertScan_length]

theorem contains_key_eqb_iff [DecidableEq K] (m : Map K V) (k : K) :
    Map.contains_key eqb m k = true ↔ k ∈ m.backing.map Prod.fst := by
  simp only [Map.contains_key, List.any_eq_true, eqb, decide_eq_true_eq,
    List.mem_map]
  constructor
  · rintro ⟨x, hx, rfl⟩
    exact ⟨x, hx, rfl⟩
  · rintro ⟨x, hx, rfl⟩
    exact ⟨x, hx, rfl⟩

theorem mem_keys_insert_eqb [DecidableEq K] (m : Map K V) (k x : K) (v : V) :
    x ∈ ((Map.insert eqb m k v).2.backing.map Prod.fst)
      ↔ x ∈ (m.backing.map Prod.fst) ∨ x = k := by
  show x ∈ ((insertScan eqb k v m.backing).2.map Prod.fst) ↔ _
  rw [insertScan_keys]
  cases hany : m.backing.any (fun p => eqb k p.1)
  · simp
  · simp only [if_true]
    have hk : k ∈ m.backing.map Prod.fst := by
      obtain ⟨p, hp, hkp⟩ := List.any_eq_true.1 hany
      have : k = p.1 := by simpa [eqb] using hkp
      subst this
      exact List.mem_map.2 ⟨p, hp, rfl⟩
    constructor
    · exact fun h => Or.inl h
    · rintro (h | rfl)
      · exact h
      · exact hk

/-! ### Helper lemmas about the entry scan and the entry-based operations -/

theorem entryScan_vacant_elim {keq : K → K → Bool} {key key' : K} :
    ∀ {l : List (K × V)}, entryScan keq key l = .vacant key' →
      key' = key ∧ ∀ p ∈ l, keq p.1 key = false
  | [], h => by
    simp only [entryScan, EntryView.vacant.injEq] at h
    exact ⟨h.symm, by simp⟩
  | (k, v) :: rest, h => by
    cases hk : keq k key
    · simp only [entryScan, hk, Bool.false_eq_true, if_false] at h
      rcases hr : entryScan keq key rest with ⟨q, k1, v1⟩ | key1
      · rw [hr] at h
        simp at h
      · rw [hr] at h
        simp only [EntryView.vacant.injEq] at h
        subst h
        obtain ⟨h1, hall⟩ := entryScan_vacant_elim hr
        refine ⟨h1, ?_⟩
        intro p hp
        rcases List.mem_cons.1 hp with rfl | hp'
        · exact hk
        · exact hall p hp'
    · simp only [entryScan, hk, if_true] at h
      simp at h

theorem entryScan_occupied_elim {keq : K → K → Bool} {key : K} :
    ∀ {l : List (K × V)} {pos : Nat} {k0 : K} {v0 : V},
      entryScan keq key l = .occupied pos k0 v0 →
      l[pos]? = some (k0, v0) ∧ keq k0 key = true
  | [], pos, k0, v0, h => by simp [entryScan] at h
  | (k, v) :: rest, pos, k0, v0, h => by
    cases hk : keq k key
    · simp only [entryScan, hk, Bool.false_eq_true, if_false] at h
      rcases hr : entryScan keq key rest with ⟨q, k1, v1⟩ | key1
      · rw [hr] at h
        simp only [EntryView.occupied.injEq] at h
        obtain ⟨hq, rfl, rfl⟩ := h
        obtain ⟨hget, hkeq⟩ := entryScan_occupied_elim hr
        subst hq
        exact ⟨by simpa using hget, hkeq⟩
      · rw [hr] at h
        simp at h
    · simp only [entryScan, hk, if_true] at h
      simp only [EntryView.occupied.injEq] at h
      obtain ⟨h0, rfl, rfl⟩ := h
      subst h0
      exact ⟨by simp, hk⟩

theorem get_entryOrInsert_eqb [DecidableEq K] (m : Map K V) (k k' : K)
    (v : V) :
    Map.get eqb ((Map.entryOrInsert eqb m k v).2) k'
      = (Map.get eqb m k').or (if k' = k then some v else none) := by
  rcases h : Map.entry eqb m k with ⟨pos, k0, v0⟩ | k1
  · simp only [Map.entryOrInsert, h]
    by_cases hk : k' = k
    · subst hk
      obtain ⟨hget, hkeq⟩ := entryScan_occupied_elim h
      obtain rfl : k0 = k' := by simpa [eqb] using hkeq
      have hmem : (k0, v0) ∈ m.backing := List.getElem?_mem hget
      have hsome : (m.backing.find? (fun p => eqb k0 p.1)).isSome := by
        rw [List.find?_isSome]
        exact ⟨(k0, v0), hmem, by simp [eqb]⟩
      rcases hg : m.backing.find? (fun p => eqb k0 p.1) with _ | w
      · rw [hg] at hsome
        simp at hsome
      · simp [Map.get, hg]
    · simp [hk]
  · obtain ⟨hk1, hall⟩ := entryScan_vacant_elim h
    simp only [Map.entryOrInsert, Map.get, h]
    rw [hk1, List.find?_append, Option.map_or']
    congr 1
    by_cases hk : k' = k
    · subst hk
      simp [List.find?_cons, eqb]
    · have hb : eqb k' k = false := by simp [eqb, hk]
      simp [List.find?_cons, hb, hk]

theorem get_decode_fold_eqb [DecidableEq K] (pairs : List (K × V)) :
    ∀ (m : Map K V) (k : K),
      Map.get eqb
          (pairs.foldl (fun m p => (Map.entryOrInsert eqb m p.1 p.2).2) m) k
        = (Map.get eqb m k).or
            ((pairs.find? (fun p => eqb k p.1)).map Prod.snd) := by
  induction pairs with
  | nil =>
    intro m k
    simp
  | cons p rest ih =>
    intro m k
    rw [List.foldl_cons, ih, get_entryOrInsert_eqb]
    by_cases hk : k = p.1
    · subst hk
      have hb : eqb p.1 p.1 = true := by simp [eqb]
      simp [List.find?_cons, hb, Option.or_assoc]
    · have hb : eqb k p.1 = false := by simp [eqb, hk]
      simp [List.find?_cons, hb, hk]

theorem get_insertMany_eqb [DecidableEq K] (ops : List (K × V)) :
    ∀ (m : Map K V) (k : K),
      Map.get eqb (Map.insertMany eqb m ops) k
        = ((ops.reverse.find? (fun p => eqb k p.1)).map Prod.snd).or
            (Map.get eqb m k) := by
  induction ops with
  | nil =>
    intro m k
    simp [Map.insertMany]
  | cons p rest ih =>
    intro m k
    rw [show Map.insertMany eqb m (p :: rest)
        = Map.insertMany eqb (Map.insert eqb m p.1 p.2).2 rest from rfl]
    rw [ih, List.reverse_cons, List.find?_append, Option.map_or',
      get_insert_eqb]
    by_cases hk : k = p.1
    · subst hk
      have hb : eqb p.1 p.1 = true := by simp [eqb]
      simp [List.find?_cons, hb, Option.or_assoc]
    · have hb : eqb k p.1 = false := by simp [eqb, hk]
      simp [List.find?_cons, hb, hk]

theorem mem_keys_insertMany_eqb [DecidableEq K] (ops : List (K × V)) :
    ∀ (m : Map K V) (x : K),
      (x ∈ (Map.insertMany eqb m ops).backing.map Prod.fst)
        ↔ x ∈ m.backing.map Prod.fst ∨ x ∈ ops.map Prod.fst := by
  induction ops with
  | nil =>
    intro m x
    simp [Map.insertMany]
  | cons p rest ih =>
    intro m x
    rw [show Map.insertMany eqb m (p :: rest)
        = Map.insertMany eqb (Map.insert eqb m p.1 p.2).2 rest from rfl]
    rw [ih, mem_keys_insert_eqb]
    simp [List.mem_cons, or_assoc]

/-! ### Preservation of the key-uniqueness invariant (map) -/

theorem keyUnique_iff_keys {keq : K → K → Bool} (m : Map K V) :
    Map.KeyUnique keq m
      ↔ (m.backing.map Prod.fst).Pairwise (fun a b => keq a b = false) := by
  unfold Map.KeyUnique
  rw [List.pairwise_map]

theorem keyUnique_insertScan {keq : K → K → Bool}
    (hsym : ∀ a b, keq a b = keq b a) {key : K} {value : V}
    {l : List (K × V)}
    (h : (l.map Prod.fst).Pairwise (fun a b => keq a b = false)) :
    (((insertScan keq key value l).2).map Prod.fst).Pairwise
      (fun a b => keq a b = false) := by
  rw [insertScan_keys]
  cases hany : l.any (fun p => keq key p.1)
  · simp only [Bool.false_eq_true, if_false]
    rw [List.pairwise_append]
    refine ⟨h, by simp, ?_⟩
    intro a ha b hb
    simp only [List.mem_singleton] at hb
    subst hb
    rw [hsym]
    obtain ⟨p, hp, hkp⟩ := List.mem_map.1 ha
    have hfalse := List.any_eq_false.1 hany p hp
    subst hkp
    simpa using hfalse
  · simpa using h

theorem keyUnique_insert {keq : K → K → Bool}
    (hsym : ∀ a b, keq a b = keq b a) (m : Map K V) (k : K) (v : V)
    (h : Map.KeyUnique keq m) :
    Map.KeyUnique keq (Map.insert keq m k v).2 := by
  rw [keyUnique_iff_keys] at h ⊢
  exact keyUnique_insertScan hsym h

theorem keyUnique_remove_entry {keq : K → K → Bool}
    (hsym : ∀ a b, keq a b = keq b a) (m : Map K V) (k : K)
    (h : Map.KeyUnique keq m) :
    Map.KeyUnique keq (Map.remove_entry keq m k).2 := by
  rcases hf : findPos (fun p => keq k p.1) m.backing with _ | pos
  · simp only [Map.remove_entry, hf]
    exact h
  · rcases hs : swapRemove m.backing pos with _ | ⟨x, l2⟩
    · simp only [Map.remove_entry, hf, hs]
      exact h
    · simp only [Map.remove_entry, hf, hs]
      have hperm := swapRemove_cons_perm hs
      unfold Map.KeyUnique at h ⊢
      have hx : (x :: l2).Pairwise (fun a b => keq a.1 b.1 = false) :=
        h.perm hperm.symm (by
          intro a b hab
          rw [hsym]
          exact hab)
      exact List.Pairwise.sublist (List.sublist_cons_self x l2) hx

theorem keyUnique_entryOrInsert {keq : K → K → Bool} (m : Map K V) (k : K)
    (v : V) (h : Map.KeyUnique keq m) :
    Map.KeyUnique keq (Map.entryOrInsert keq m k v).2 := by
  rcases he : Map.entry keq m k with ⟨pos, k0, v0⟩ | k1
  · simp only [Map.entryOrInsert, he]
    exact h
  · obtain ⟨hk1, hall⟩ := entryScan_vacant_elim he
    simp only [Map.entryOrInsert, he]
    unfold Map.KeyUnique at h ⊢
    rw [List.pairwise_append]
    refine ⟨h, by simp, ?_⟩
    intro a ha b hb
    simp only [List.mem_singleton] at hb
    subst hb
    show keq a.1 k1 = false
    rw [hk1]
    exact hall a ha

theorem keyUnique_entryRemove {keq : K → K → Bool} {m m2 : Map K V} {k : K}
    {v : V} (hrem : Map.entryRemove keq m k = some (v, m2))
    (h : Map.KeyUnique keq m) : Map.KeyUnique keq m2 := by
  unfold Map.entryRemove at hrem
  rcases he : Map.entry keq m k with ⟨pos, k0, v0⟩ | k1
  · rw [he] at hrem
    simp only [Option.some.injEq, Prod.mk.injEq] at hrem
    obtain ⟨-, rfl⟩ := hrem
    unfold Map.KeyUnique at h ⊢
    exact List.Pairwise.sublist (List.eraseIdx_sublist _ _) h
  · rw [he] at hrem
    simp at hrem

theorem filterMap_keys_sublist (g : K × V → Option (K × V))
    (hg : ∀ p q, g p = some q → q.1 = p.1) :
    ∀ (l : List (K × V)),
      ((l.filterMap g).map Prod.fst).Sublist (l.map Prod.fst)
  | [] => by simp
  | a :: rest => by
    have ih := filterMap_keys_sublist g hg rest
    rw [List.filterMap_cons]
    rcases hga : g a with _ | q
    · exact ih.trans (List.sublist_cons_self _ _)
    · simp only [List.map_cons]
      rw [hg a q hga]
      exact List.Sublist.cons₂ _ ih

theorem keyUnique_retain {keq : K → K → Bool} (f : K → V → Bool × V)
    (m : Map K V) (h : Map.KeyUnique keq m) :
    Map.KeyUnique keq (Map.retain f m) := by
  rw [keyUnique_iff_keys] at h ⊢
  refine List.Pairwise.sublist ?_ h
  refine filterMap_keys_sublist _ ?_ m.backing
  intro p q hpq
  simp only at hpq
  by_cases hf : (f p.1 p.2).1 = true
  · rw [if_pos hf] at hpq
    cases hpq
    rfl
  · rw [if_neg hf] at hpq
    cases hpq

theorem reach_keyUnique {keq : K → K → Bool}
    (hsym : ∀ a b, keq a b = keq b a) :
    ∀ {m : Map K V}, Map.Reach keq m → Map.KeyUnique keq m := by
  intro m h
  induction h with
  | empty => exact List.Pairwise.nil
  | insert m k v hm ih => exact keyUnique_insert hsym m k v ih
  | remove_entry m k hm ih => exact keyUnique_remove_entry hsym m k ih
  | entryOrInsert m k v hm ih => exact keyUnique_entryOrInsert m k v ih
  | entryRemove m m2 k v hm hrem ih => exact keyUnique_entryRemove hrem ih
  | retain m f hm ih => exact keyUnique_retain f m ih
  | clear m hm => exact List.Pairwise.nil

theorem reach_insertMany {keq : K → K → Bool} (ops : List (K × V)) :
    ∀ {m : Map K V}, Map.Reach keq m →
      Map.Reach keq (Map.insertMany keq m ops) := by
  induction ops with
  | nil =>
    intro m h
    exact h
  | cons p rest ih =>
    intro m h
    exact ih (Map.Reach.insert m p.1 p.2 h)

theorem keyUnique_eqb_iff_nodup [DecidableEq K] (m : Map K V) :
    Map.KeyUnique eqb m ↔ (m.backing.map Prod.fst).Nodup := by
  rw [keyUnique_iff_keys]
  unfold List.Nodup
  constructor <;> intro h <;> refine h.imp ?_ <;> intro a b hab
  · simpa [eqb] using hab
  · simp [eqb]
    simpa using hab

/-! ### Set-side helper lemmas -/

theorem differenceList_eq_filter {teq : T → T → Bool} :
    ∀ (l : List T) (other : Set T),
      differenceList teq l other
        = l.filter (fun x => !Set.contains teq other x)
  | [], _ => rfl
  | x :: rest, other => by
    cases hc : Set.contains teq other x
    · simp [differenceList, hc, differenceList_eq_filter rest other]
    · simp [differenceList, hc, differenceList_eq_filter rest other]

theorem contains_eqb_iff [DecidableEq T] (s : Set T) (x : T) :
    Set.contains eqb s x = true ↔ x ∈ s.backing := by
  simp only [Set.contains, List.any_eq_true, eqb, decide_eq_true_eq]
  constructor
  · rintro ⟨y, hy, rfl⟩
    exact hy
  · intro h
    exact ⟨x, h, rfl⟩

theorem replaceScan_of_notFound {teq : T → T → Bool} {value : T} :
    ∀ {l : List T}, (∀ x ∈ l, teq x value = false) →
      replaceScan teq value l = (none, l ++ [value])
  | [], _ => by simp [replaceScan]
  | v :: rest, h => by
    have hv : teq v value = false := h v (by simp)
    have hrest : ∀ x ∈ rest, teq x value = false :=
      fun x hx => h x (List.mem_cons_of_mem _ hx)
    simp [replaceScan, hv, replaceScan_of_notFound hrest]

theorem replaceScan_of_found {teq : T → T → Bool} {value : T} :
    ∀ {l : List T} {pos : Nat} {v0 : T},
      findPos (fun v => teq v value) l = some pos →
      l[pos]? = some v0 →
      replaceScan teq value l = (some v0, l.set pos value)
  | [], pos, v0, h, _ => by simp [findPos] at h
  | v :: rest, pos, v0, h, hget => by
    rw [findPos_cons] at h
    cases hv : teq v value
    · simp only [hv, Bool.false_eq_true, if_false] at h
      rcases hq : findPos (fun w => teq w value) rest with _ | q
      · rw [hq] at h
        simp at h
      · rw [hq] at h
        simp only [Option.map_some'] at h
        obtain rfl : q + 1 = pos := by simpa using h
        simp only [List.getElem?_cons_succ] at hget
        simp [replaceScan, hv, replaceScan_of_found hq hget,
          List.set_cons_succ]
    · simp only [hv, if_true] at h
      obtain rfl : (0 : Nat) = pos := by simpa using h
      simp only [List.getElem?_cons_zero] at hget
      obtain rfl : v = v0 := by simpa using hget
      simp [replaceScan, hv, List.set_cons_zero]

/-! ### Preservation of the uniqueness invariant (set) -/

theorem setUnique_insert {teq : T → T → Bool} (s : Set T) (v : T)
    (h : Set.Unique teq s) : Set.Unique teq (Set.insert teq s v).2 := by
  unfold Set.insert
  cases hany : s.backing.any (fun w => teq w v)
  · simp only [Bool.false_eq_true, if_false]
    unfold Set.Unique at h ⊢
    show (s.backing ++ [v]).Pairwise (fun a b => teq a b = false)
    rw [List.pairwise_append]
    refine ⟨h, by simp, ?_⟩
    intro a ha b hb
    simp only [List.mem_singleton] at hb
    subst hb
    have hfalse := List.any_eq_false.1 hany a ha
    simpa using hfalse
  · simp only [if_true]
    exact h

theorem setUnique_take {teq : T → T → Bool}
    (hsym : ∀ a b, teq a b = teq b a) (s : Set T) (v : T)
    (h : Set.Unique teq s) : Set.Unique teq (Set.take teq s v).2 := by
  rcases hf : findPos (fun w => teq v w) s.backing with _ | pos
  · simp only [Set.take, hf]
    exact h
  · rcases hs : swapRemove s.backing pos with _ | ⟨x, l2⟩
    · simp only [Set.take, hf, hs]
      exact h
    · simp only [Set.take, hf, hs]
      have hperm := swapRemove_cons_perm hs
      unfold Set.Unique at h ⊢
      have hx : (x :: l2).Pairwise (fun a b => teq a b = false) :=
        h.perm hperm.symm (by
          intro a b hab
          rw [hsym]
          exact hab)
      exact List.Pairwise.sublist (List.sublist_cons_self x l2) hx

theorem setUnique_replace {teq : T → T → Bool}
    (hsym : ∀ a b, teq a b = teq b a)
    (htrans : ∀ a b c, teq a b = true → teq b c = true → teq a c = true)
    (s : Set T) (v : T) (h : Set.Unique teq s) :
    Set.Unique teq (Set.replace teq s v).2 := by
  rcases hf : findPos (fun w => teq w v) s.backing with _ | pos
  · have hall : ∀ x ∈ s.backing, teq x v = false := by
      have hnone := findPos_eq_none.1 hf
      intro x hx
      simpa using hnone x hx
    rw [show (Set.replace teq s v).2 = ⟨s.backing ++ [v]⟩ by
      simp [Set.replace, replaceScan_of_notFound hall]]
    unfold Set.Unique at h ⊢
    rw [List.pairwise_append]
    refine ⟨h, by simp, ?_⟩
    intro a ha b hb
    simp only [List.mem_singleton] at hb
    subst hb
    exact hall a ha
  · have hpos : pos < s.backing.length := findPos_lt_length hf
    obtain ⟨v0, hget, hv0⟩ := findPos_some_getElem hf
    have hgetE : s.backing[pos] = v0 := by
      have := List.getElem?_eq_some_iff.1 hget
      exact this.2
    have hv0t : teq (s.backing[pos]) v = true := by
      rw [hgetE]
      simpa using hv0
    rw [show (Set.replace teq s v).2 = ⟨s.backing.set pos v⟩ by
      simp [Set.replace, replaceScan_of_found hf hget]]
    unfold Set.Unique at h ⊢
    rw [List.pairwise_iff_getElem] at h ⊢
    intro i j hi hj hij
    rw [List.length_set] at hi hj
    rw [List.getElem_set, List.getElem_set]
    by_cases hjp : pos = j
    · subst hjp
      have hip : ¬pos = i := by omega
      rw [if_pos rfl, if_neg hip]
      cases hb2 : teq (s.backing[i]) v
      · rfl
      · exfalso
        have h1 : teq (s.backing[i]) (s.backing[pos]) = false :=
          h i pos hi hpos hij
        have h2 : teq v (s.backing[pos]) = true := by
          rw [hsym]
          exact hv0t
        have h3 := htrans _ _ _ hb2 h2
        rw [h1] at h3
        exact Bool.false_ne_true h3
    · rw [if_neg hjp]
      by_cases hip : pos = i
      · subst hip
        rw [if_pos rfl]
        cases hb2 : teq v (s.backing[j])
        · rfl
        · exfalso
          have h1 : teq (s.backing[pos]) (s.backing[j]) = false :=
            h pos j hi hj hij
          have h3 := htrans _ _ _ hv0t hb2
          rw [h1] at h3
          exact Bool.false_ne_true h3
      · rw [if_neg hip]
        exact h i j hi hj hij

theorem setUnique_get_or_insert {teq : T → T → Bool}
    (hsym : ∀ a b, teq a b = teq b a) (s : Set T) (v : T)
    (h : Set.Unique teq s) :
    Set.Unique teq (Set.get_or_insert teq s v).2 := by
  rcases hg : Set.get teq s v with _ | w
  · simp only [Set.get_or_insert, hg]
    have hall := List.find?_eq_none.1 hg
    unfold Set.Unique at h ⊢
    show (s.backing ++ [v]).Pairwise (fun a b => teq a b = false)
    rw [List.pairwise_append]
    refine ⟨h, by simp, ?_⟩
    intro a ha b hb
    simp only [List.mem_singleton] at hb
    subst hb
    rw [hsym]
    have hfalse := hall a ha
    simpa using hfalse
  · simp only [Set.get_or_insert, hg]
    exact h

theorem setUnique_retain {teq : T → T → Bool} (p : T → Bool) (s : Set T)
    (h : Set.Unique teq s) : Set.Unique teq (Set.retain p s) := by
  unfold Set.Unique at h ⊢
  exact List.Pairwise.sublist (List.filter_sublist _) h

theorem reach_setUnique {teq : T → T → Bool}
    (hsym : ∀ a b, teq a b = teq b a)
    (htrans : ∀ a b c, teq a b = true → teq b c = true → teq a c = true) :
    ∀ {s : Set T}, Set.Reach teq s → Set.Unique teq s := by
  intro s h
  induction h with
  | empty => exact List.Pairwise.nil
  | insert s v hs ih => exact setUnique_insert s v ih
  | take s v hs ih => exact setUnique_take hsym s v ih
  | replace s v hs ih => exact setUnique_replace hsym htrans s v ih
  | get_or_insert s v hs ih => exact setUnique_get_or_insert hsym s v ih
  | retain s p hs ih => exact setUnique_retain p s ih
  | clear s hs => exact List.Pairwise.nil

theorem setUnique_eqb_iff_nodup [DecidableEq T] (s : Set T) :
    Set.Unique eqb s ↔ s.backing.Nodup := by
  unfold Set.Unique List.Nodup
  constructor <;> intro h <;> refine h.imp ?_ <;> intro a b hab
  · simpa [eqb] using hab
  · simp [eqb]
    simpa using hab

theorem is_subset_eqb_iff [DecidableEq T] (a b : Set T) :
    Set.is_subset eqb a b = true
      ↔ a.backing.length ≤ b.backing.length
        ∧ ∀ x ∈ a.backing, x ∈ b.backing := by
  unfold Set.is_subset Set.difference Set.len
  rw [differenceList_eq_filter, Bool.and_eq_true, decide_eq_true_eq,
    beq_iff_eq, List.length_eq_zero, List.filter_eq_nil_iff]
  constructor
  · rintro ⟨h1, h2⟩
    refine ⟨h1, fun x hx => ?_⟩
    have hx2 := h2 x hx
    rw [← contains_eqb_iff b x]
    simpa using hx2
  · rintro ⟨h1, h2⟩
    refine ⟨h1, fun x hx => ?_⟩
    have hmem := (contains_eqb_iff b x).2 (h2 x hx)
    simp [hmem]

/-! ### Derived-equality helper lemmas -/

theorem listEq_iff_eq {α : Type} {eq : α → α → Bool}
    (heq : ∀ a b, eq a b = true ↔ a = b) :
    ∀ (l1 l2 : List α), listEq eq l1 l2 = true ↔ l1 = l2
  | [], [] => by simp [listEq]
  | [], b :: lb => by simp [listEq]
  | a :: la, [] => by simp [listEq]
  | a :: la, b :: lb => by
    simp [listEq, Bool.and_eq_true, heq, listEq_iff_eq heq la lb]

theorem pairEq_eqb_iff [DecidableEq K] [DecidableEq V] (a b : K × V) :
    pairEq eqb eqb a b = true ↔ a = b := by
  simp [pairEq, eqb, Prod.ext_iff]

theorem eqb_iff {α : Type} [DecidableEq α] (a b : α) :
    eqb a b = true ↔ a = b := by
  simp [eqb]

theorem listEq_iff_positional {α : Type} {eq : α → α → Bool}
    (heq : ∀ a b, eq a b = true ↔ a = b) (l1 l2 : List α) :
    listEq eq l1 l2 = true
      ↔ l1.length = l2.length
        ∧ ∀ (i : Nat) (h1 : i < l1.length) (h2 : i < l2.length),
            l1.get ⟨i, h1⟩ = l2.get ⟨i, h2⟩ := by
  rw [listEq_iff_eq heq]
  constructor
  · rintro rfl
    exact ⟨rfl, fun i h1 h2 => rfl⟩
  · rintro ⟨h1, h2⟩
    exact List.ext_getElem h1 (fun n hn1 hn2 => h2 n hn1 hn2)

/-! ### Claim theorems -/

/-- C6: building a map by repeated `entry(key).or_insert(value)` (the serde
decode path) keeps, for every key, the value from the FIRST pair with that
key; for an occupied key `or_insert` returns the existing value without
overwriting, and for a vacant key it appends `(key, value)`. -/
theorem c6_decode_first_wins [DecidableEq K] (pairs : List (K × V)) :
    (∀ k, Map.get eqb (Map.decodeFromPairs eqb pairs) k
        = (pairs.find? (fun p => eqb k p.1)).map Prod.snd)
      ∧ (∀ (m : Map K V) (k : K) (v : V) (pos : Nat) (k0 : K) (v0 : V),
          Map.entry eqb m k = .occupied pos k0 v0 →
            Map.entryOrInsert eqb m k v = (v0, m))
      ∧ (∀ (m : Map K V) (k : K) (v : V) (k1 : K),
          Map.entry eqb m k = .vacant k1 →
            Map.entryOrInsert eqb m k v = (v, ⟨m.backing ++ [(k1, v)]⟩)) := by
  refine ⟨?_, ?_, ?_⟩
  · intro k
    unfold Map.decodeFromPairs
    rw [get_decode_fold_eqb]
    simp [Map.get]
  · intro m k v pos k0 v0 h
    simp [Map.entryOrInsert, h]
  · intro m k v k1 h
    simp [Map.entryOrInsert, h]

/-- Witness for C6: decoding duplicate keys keeps the first value, and
`or_insert` on an occupied concrete entry returns the stored value without
overwriting. -/
theorem c6_decode_first_wins_witness :
    Map.get eqb (Map.decodeFromPairs eqb [(1, 10), (1, 20)] : Map Nat Nat) 1
        = some 10
      ∧ Map.entryOrInsert eqb (⟨[(1, 5)]⟩ : Map Nat Nat) 1 99
        = (5, ⟨[(1, 5)]⟩) := by
  have h := c6_decode_first_wins (K := Nat) (V := Nat) [(1, 10), (1, 20)]
  refine ⟨?_, ?_⟩
  · rw [h.1 1]
    rfl
  · exact h.2.1 ⟨[(1, 5)]⟩ 1 99 0 1 5 rfl

/-- C7: indexing a map by a key fails (the "no entry found for key" panic,
modelled as `Except.error`) exactly when the key is absent, and succeeds with
the associated value otherwise; `get` on the same map and key is total,
returning `none` exactly when indexing would fail and the same value when
indexing succeeds. -/
theorem c7_index_vs_get [DecidableEq K] (m : Map K V) (k : K) :
    ((∃ e, Map.indexOp eqb m k = Except.error e)
        ↔ Map.contains_key eqb m k = false)
      ∧ (∀ v, Map.indexOp eqb m k = Except.ok v ↔ Map.get eqb m k = some v)
      ∧ (Map.get eqb m k = none
        ↔ ∃ e, Map.indexOp eqb m k = Except.error e) := by
  have hget : Map.get eqb m k = none ↔ Map.contains_key eqb m k = false := by
    unfold Map.get Map.contains_key
    simp [Option.map_eq_none', List.find?_eq_none, List.any_eq_false]
  refine ⟨?_, ?_, ?_⟩
  · constructor
    · rintro ⟨e, he⟩
      unfold Map.indexOp at he
      rcases hg : Map.get eqb m k with _ | v
      · exact hget.1 hg
      · rw [hg] at he
        simp at he
    · intro hc
      refine ⟨(), ?_⟩
      unfold Map.indexOp
      rw [hget.2 hc]
  · intro v
    constructor
    · intro he
      unfold Map.indexOp at he
      rcases hg : Map.get eqb m k with _ | w
      · rw [hg] at he
        simp at he
      · rw [hg] at he
        simp at he
        rw [he]
    · intro hg
      unfold Map.indexOp
      rw [hg]
  · constructor
    · intro hg
      refine ⟨(), ?_⟩
      unfold Map.indexOp
      rw [hg]
    · rintro ⟨e, he⟩
      unfold Map.indexOp at he
      rcases hg : Map.get eqb m k with _ | v
      · rfl
      · rw [hg] at he
        simp at he

/-- C8: removing through an occupied entry handle uses shift removal, not
swap-with-last: the occupied pair is removed, its value returned, and all
remaining pairs keep their relative order (`take pos ++ drop (pos + 1)`, a
sublist of the original backing) — unlike `Map::remove`, which moves the
last pair into the vacated slot, as the concrete contrast shows. -/
theorem c8_entry_remove_shift [DecidableEq K] (m : Map K V) (k : K)
    (pos : Nat) (k0 : K) (v0 : V)
    (h : Map.entry eqb m k = .occupied pos k0 v0) :
    Map.entryRemove eqb m k = some (v0, ⟨m.backing.eraseIdx pos⟩)
      ∧ m.backing[pos]? = some (k0, v0)
      ∧ k0 = k
      ∧ m.backing.eraseIdx pos
          = m.backing.take pos ++ m.backing.drop (pos + 1)
      ∧ (m.backing.eraseIdx pos).Sublist m.backing
      ∧ (⟨m.backing.eraseIdx pos⟩ : Map K V).len = m.len - 1
      ∧ (Map.remove eqb (⟨[(1, 10), (2, 20), (3, 30)]⟩ : Map Nat Nat) 1).2
          = ⟨[(3, 30), (2, 20)]⟩
      ∧ Map.entryRemove eqb (⟨[(1, 10), (2, 20), (3, 30)]⟩ : Map Nat Nat) 1
          = some (10, ⟨[(2, 20), (3, 30)]⟩) := by
  obtain ⟨hget, hkeq⟩ := entryScan_occupied_elim h
  have hpos : pos < m.backing.length := (List.getElem?_eq_some_iff.1 hget).1
  refine ⟨by simp [Map.entryRemove, h], hget, by simpa [eqb] using hkeq,
    List.eraseIdx_eq_take_drop_succ m.backing pos,
    List.eraseIdx_sublist m.backing pos, ?_, rfl, rfl⟩
  simp [Map.len, List.length_eraseIdx, hpos]

/-- Witness for C8: removing key 2 through its occupied entry on a concrete
three-pair map removes that pair by shifting, keeping order. -/
theorem c8_entry_remove_shift_witness :
    Map.entryRemove eqb (⟨[(1, 10), (2, 20), (3, 30)]⟩ : Map Nat Nat) 2
      = some (20, ⟨[(1, 10), (3, 30)]⟩) := by
  have h := c8_entry_remove_shift (⟨[(1, 10), (2, 20), (3, 30)]⟩ : Map Nat Nat)
    2 1 2 20 rfl
  exact h.1

/-- C9: when `Map::insert(key, value)` finds an equal key already present
(under an arbitrary key comparison `keq`), only the stored value is replaced:
the originally stored key object `k0` is kept and the caller's `key` is
discarded, the pair stays at its position, every other pair is unchanged, and
the length is unchanged. -/
theorem c9_insert_keeps_stored_key (keq : K → K → Bool) (m : Map K V)
    (key : K) (value : V) (pos : Nat) (k0 : K) (v0 : V)
    (hf : findPos (fun p => keq key p.1) m.backing = some pos)
    (hget : m.backing[pos]? = some (k0, v0)) :
    Map.insert keq m key value
        = (some v0, ⟨m.backing.set pos (k0, value)⟩)
      ∧ (m.backing.set pos (k0, value))[pos]? = some (k0, value)
      ∧ (∀ i, i ≠ pos →
          (m.backing.set pos (k0, value))[i]? = m.backing[i]?)
      ∧ (m.backing.set pos (k0, value)).length = m.backing.length := by
  have hpos : pos < m.backing.length := findPos_lt_length hf
  refine ⟨?_, ?_, ?_, ?_⟩
  · simp [Map.insert, insertScan_of_found hf hget]
  · simp [List.getElem?_set, hpos]
  · intro i hi
    rw [List.getElem?_set, if_neg (fun hc => hi hc.symm)]
  · exact List.length_set m.backing pos (k0, value)

/-- Witness for C9: with a key comparison that ignores the second component,
inserting at key `(1, 99)` over stored key `(1, 0)` keeps the stored key
`(1, 0)` and replaces only the value. -/
theorem c9_insert_keeps_stored_key_witness :
    Map.insert (fun a b : Nat × Nat => decide (a.1 = b.1))
        (⟨[((1, 0), 5)]⟩ : Map (Nat × Nat) Nat) (1, 99) 7
      = (some 5, ⟨[((1, 0), 7)]⟩) := by
  have h := c9_insert_keeps_stored_key
    (fun a b : Nat × Nat => decide (a.1 = b.1))
    (⟨[((1, 0), 5)]⟩ : Map (Nat × Nat) Nat) (1, 99) 7 0 (1, 0) 5 rfl rfl
  exact h.1

/-- C10: the derived equality operator on `Map` and `Set` is positional —
true exactly when the backing sequences have equal length and equal elements
at every index (equivalently, when the containers are equal as structures) —
so two sets with the same membership but different order compare unequal, as
the concrete `{1, 2}` versus `{2, 1}` instance shows. -/
theorem c10_positional_equality [DecidableEq K] [DecidableEq V]
    [DecidableEq T] :
    (∀ a b : Map K V, Map.eqOp eqb eqb a b = true
        ↔ a.backing.length = b.backing.length
          ∧ ∀ (i : Nat) (h1 : i < a.backing.length)
              (h2 : i < b.backing.length),
              a.backing.get ⟨i, h1⟩ = b.backing.get ⟨i, h2⟩)
      ∧ (∀ a b : Set T, Set.eqOp eqb a b = true
          ↔ a.backing.length = b.backing.length
            ∧ ∀ (i : Nat) (h1 : i < a.backing.length)
                (h2 : i < b.backing.length),
                a.backing.get ⟨i, h1⟩ = b.backing.get ⟨i, h2⟩)
      ∧ (∀ a b : Map K V, Map.eqOp eqb eqb a b = true ↔ a = b)
      ∧ (∀ a b : Set T, Set.eqOp eqb a b = true ↔ a = b)
      ∧ Set.eqOp eqb (⟨[1, 2]⟩ : Set Nat) ⟨[2, 1]⟩ = false
      ∧ (∀ x, Set.contains eqb (⟨[1, 2]⟩ : Set Nat) x
          = Set.contains eqb (⟨[2, 1]⟩ : Set Nat) x) := by
  refine ⟨?_, ?_, ?_, ?_, by decide, ?_⟩
  · intro a b
    exact listEq_iff_positional pairEq_eqb_iff a.backing b.backing
  · intro a b
    exact listEq_iff_positional eqb_iff a.backing b.backing
  · intro a b
    rw [show (Map.eqOp eqb eqb a b = true)
        ↔ a.backing = b.backing from listEq_iff_eq pairEq_eqb_iff _ _]
    cases a
    cases b
    simp
  · intro a b
    rw [show (Set.eqOp eqb a b = true)
        ↔ a.backing = b.backing from listEq_iff_eq eqb_iff _ _]
    cases a
    cases b
    simp
  · intro x
    by_cases h1 : x = 1 <;> by_cases h2 : x = 2 <;>
      simp [Set.contains, eqb, h1, h2]

/-- C3 counterexample: the sets `{1, 2}` and `{2, 1}` (insertion orders
differ) are mutual subsets, yet the `==` operator — positional equality of
the backing vectors — returns false, and the structures are unequal.  So
"`A.is_subset(B) && B.is_subset(A)` iff `A == B`" fails as stated. -/
theorem c3_counterexample :
    Set.is_subset eqb (⟨[1, 2]⟩ : Set Nat) ⟨[2, 1]⟩ = true
      ∧ Set.is_subset eqb (⟨[2, 1]⟩ : Set Nat) ⟨[1, 2]⟩ = true
      ∧ Set.eqOp eqb (⟨[1, 2]⟩ : Set Nat) ⟨[2, 1]⟩ = false
      ∧ (⟨[1, 2]⟩ : Set Nat) ≠ ⟨[2, 1]⟩ := by
  refine ⟨by decide, by decide, by decide, ?_⟩
  intro h
  have hb := congrArg Set.backing h
  simp at hb

/-- C3 amended: for sets satisfying the uniqueness invariant, mutual
`is_subset` holds iff the two sets have the same membership (`contains`
agrees on every value); positional `==` still implies mutual `is_subset`,
but not conversely. -/
theorem c3_amended [DecidableEq T] (A B : Set T)
    (hA : Set.Unique eqb A) (hB : Set.Unique eqb B) :
    ((Set.is_subset eqb A B = true ∧ Set.is_subset eqb B A = true)
        ↔ ∀ x, Set.contains eqb A x = Set.contains eqb B x)
      ∧ (Set.eqOp eqb A B = true →
          Set.is_subset eqb A B = true ∧ Set.is_subset eqb B A = true) := by
  have hAnodup := (setUnique_eqb_iff_nodup A).1 hA
  have hBnodup := (setUnique_eqb_iff_nodup B).1 hB
  constructor
  · constructor
    · rintro ⟨h1, h2⟩ x
      rw [is_subset_eqb_iff] at h1 h2
      cases hc : Set.contains eqb A x
      · cases hc2 : Set.contains eqb B x
        · rfl
        · exfalso
          have hxB := (contains_eqb_iff B x).1 hc2
          have hxA := (contains_eqb_iff A x).2 (h2.2 x hxB)
          rw [hc] at hxA
          exact Bool.false_ne_true hxA
      · have hxA := (contains_eqb_iff A x).1 hc
        exact ((contains_eqb_iff B x).2 (h1.2 x hxA)).symm
    · intro hcont
      have hmem : ∀ x, x ∈ A.backing ↔ x ∈ B.backing := by
        intro x
        rw [← contains_eqb_iff A x, ← contains_eqb_iff B x, hcont x]
      have hlen : A.backing.length = B.backing.length := by
        rw [← List.toFinset_card_of_nodup hAnodup,
          ← List.toFinset_card_of_nodup hBnodup]
        congr 1
        ext x
        simpa using hmem x
      rw [is_subset_eqb_iff, is_subset_eqb_iff]
      exact ⟨⟨le_of_eq hlen, fun x hx => (hmem x).1 hx⟩,
        ⟨le_of_eq hlen.symm, fun x hx => (hmem x).2 hx⟩⟩
  · intro heq
    have hAB : A.backing = B.backing := (listEq_iff_eq eqb_iff _ _).1 heq
    rw [is_subset_eqb_iff, is_subset_eqb_iff, hAB]
    exact ⟨⟨le_rfl, fun x hx => hx⟩, ⟨le_rfl, fun x hx => hx⟩⟩

/-- Witness for C3's amended statement: for the concrete uniqueness-respecting
sets `{1, 2}` and `{2, 1}`, mutual `is_subset` (checked by evaluation) yields
agreement of `contains` at the concrete value 2, and both sets indeed satisfy
the uniqueness invariant. -/
theorem c3_amended_witness :
    Set.contains eqb (⟨[1, 2]⟩ : Set Nat) 2
      = Set.contains eqb (⟨[2, 1]⟩ : Set Nat) 2 := by
  have h := c3_amended (⟨[1, 2]⟩ : Set Nat) ⟨[2, 1]⟩
    (by unfold Set.Unique; decide) (by unfold Set.Unique; decide)
  exact (h.1.1 ⟨by decide, by decide⟩) 2

/-- C1: starting from the empty map, after any sequence of `insert(k, v)`
calls (keys possibly repeating), `len()` equals the number of distinct keys
inserted, and for every inserted key, `get` returns some value — namely the
value of the last insert with that key (the first match in the reversed
sequence). -/
theorem c1_insert_sequence [DecidableEq K] (ops : List (K × V)) :
    (Map.insertMany eqb (Map.empty : Map K V) ops).len
        = (ops.map Prod.fst).toFinset.card
      ∧ ∀ k, k ∈ ops.map Prod.fst →
          Map.get eqb (Map.insertMany eqb Map.empty ops) k
              = (ops.reverse.find? (fun p => eqb k p.1)).map Prod.snd
            ∧ ((ops.reverse.find? (fun p => eqb k p.1)).map
                Prod.snd).isSome = true := by
  have hsym : ∀ (a b : K), eqb a b = eqb b a := by
    intro a b
    by_cases h : a = b
    · subst h
      rfl
    · have h2 : ¬b = a := fun hc => h hc.symm
      simp [eqb, h, h2]
  constructor
  · have hreach : Map.Reach eqb
        (Map.insertMany eqb (Map.empty : Map K V) ops) :=
      reach_insertMany ops Map.Reach.empty
    have hnodup := (keyUnique_eqb_iff_nodup _).1 (reach_keyUnique hsym hreach)
    have hlen : (Map.insertMany eqb (Map.empty : Map K V) ops).len
        = ((Map.insertMany eqb (Map.empty : Map K V) ops).backing.map
            Prod.fst).length := by
      simp [Map.len]
    rw [hlen, ← List.toFinset_card_of_nodup hnodup]
    congr 1
    ext x
    simp only [List.mem_toFinset]
    rw [mem_keys_insertMany_eqb ops Map.empty x]
    simp [Map.empty]
  · intro k hk
    constructor
    · rw [get_insertMany_eqb]
      rw [show Map.get eqb (Map.empty : Map K V) k = none from rfl]
      exact Option.or_none
    · rw [Option.isSome_map', List.find?_isSome]
      obtain ⟨p, hp, hpk⟩ := List.mem_map.1 hk
      exact ⟨p, List.mem_reverse.2 hp, by simp [eqb, hpk]⟩

/-- Witness for C1: inserting `(1,10), (2,20), (1,30)` yields length 2 and
`get 1 = some 30` (the last insert for key 1 wins). -/
theorem c1_insert_sequence_witness :
    (Map.insertMany eqb (Map.empty : Map Nat Nat)
        [(1, 10), (2, 20), (1, 30)]).len = 2
      ∧ Map.get eqb (Map.insertMany eqb (Map.empty : Map Nat Nat)
          [(1, 10), (2, 20), (1, 30)]) 1 = some 30 := by
  have h := c1_insert_sequence (V := Nat) [(1, 10), (2, 20), (1, 30)]
  refine ⟨?_, ?_⟩
  · rw [h.1]
    decide
  · rw [(h.2 1 (by decide)).1]
    rfl

/-- C2: key/value uniqueness is an invariant preserved by every public
operation: whenever the key (resp. element) comparison is symmetric — and,
for `Set::replace`, transitive — every map reachable by the public mutating
operations has pairwise-distinct keys, and every reachable set has
pairwise-distinct elements. -/
theorem c2_uniqueness_invariant (keq : K → K → Bool) (teq : T → T → Bool)
    (hsymK : ∀ a b, keq a b = keq b a)
    (hsymT : ∀ a b, teq a b = teq b a)
    (htransT : ∀ a b c, teq a b = true → teq b c = true → teq a c = true) :
    (∀ m : Map K V, Map.Reach keq m → Map.KeyUnique keq m)
      ∧ ∀ s : Set T, Set.Reach teq s → Set.Unique teq s :=
  ⟨fun _ h => reach_keyUnique hsymK h,
    fun _ h => reach_setUnique hsymT htransT h⟩

/-- Witness for C2: the invariant holds for concrete reachable containers
obtained by one insert each. -/
theorem c2_uniqueness_invariant_witness :
    Map.KeyUnique eqb (Map.insert eqb (Map.empty : Map Nat Nat) 1 2).2
      ∧ Set.Unique eqb (Set.insert eqb (Set.empty : Set Nat) 5).2 := by
  have hsym : ∀ (a b : Nat), eqb a b = eqb b a := by
    intro a b
    by_cases h : a = b
    · subst h
      rfl
    · have h2 : ¬b = a := fun hc => h hc.symm
      simp [eqb, h, h2]
  have htrans : ∀ (a b c : Nat), eqb a b = true → eqb b c = true →
      eqb a c = true := by
    intro a b c h1 h2
    simp only [eqb, decide_eq_true_eq] at h1 h2 ⊢
    exact h1.trans h2
  have h := c2_uniqueness_invariant (V := Nat) eqb eqb hsym hsym htrans
  exact ⟨h.1 _ (Map.Reach.insert Map.empty 1 2 Map.Reach.empty),
    h.2 _ (Set.Reach.insert Set.empty 5 Set.Reach.empty)⟩

/-- C4: map `remove`/`remove_entry` and set `remove`/`take` locate the first
matching element by linear scan and remove it by swap-with-last — the found
slot receives the last element's content and the sequence shortens by one —
while an absent key/value returns `none`/`false` and leaves the container
unchanged. -/
theorem c4_swap_removal [DecidableEq K] [DecidableEq T] (m : Map K V)
    (k : K) (s : Set T) (t : T) :
    (Map.contains_key eqb m k = false →
        Map.remove_entry eqb m k = (none, m)
          ∧ Map.remove eqb m k = (none, m))
      ∧ (∀ pos, findPos (fun p => eqb k p.1) m.backing = some pos →
          (Map.remove_entry eqb m k).1 = m.backing[pos]?
            ∧ (Map.remove_entry eqb m k).2.len = m.len - 1
            ∧ ∀ i, i < m.len - 1 →
                ((Map.remove_entry eqb m k).2.backing)[i]?
                  = if i = pos then m.backing[m.len - 1]?
                    else m.backing[i]?)
      ∧ (Set.contains eqb s t = false →
          Set.take eqb s t = (none, s) ∧ Set.remove eqb s t = (false, s))
      ∧ ∀ pos, findPos (fun v => eqb t v) s.backing = some pos →
          (Set.take eqb s t).1 = s.backing[pos]?
            ∧ (Set.take eqb s t).2.len = s.len - 1
            ∧ Set.remove eqb s t = (true, (Set.take eqb s t).2)
            ∧ ∀ i, i < s.len - 1 →
                ((Set.take eqb s t).2.backing)[i]?
                  = if i = pos then s.backing[s.len - 1]?
                    else s.backing[i]? := by
  refine ⟨?_, ?_, ?_, ?_⟩
  · intro hc
    have hnone : findPos (fun p => eqb k p.1) m.backing = none := by
      have h1 := findPos_any (p := fun p => eqb k p.1) (l := m.backing)
      rw [show m.backing.any (fun p => eqb k p.1) = false from hc] at h1
      exact Option.not_isSome_iff_eq_none.1 (by simp [h1])
    constructor
    · simp [Map.remove_entry, hnone]
    · simp [Map.remove, Map.remove_entry, hnone]
  · intro pos hf
    have hpos : pos < m.backing.length := findPos_lt_length hf
    obtain ⟨x, l2, hs⟩ := swapRemove_isSome hpos
    have hre : Map.remove_entry eqb m k = (some x, ⟨l2⟩) := by
      simp [Map.remove_entry, hf, hs]
    obtain ⟨hx, -⟩ := swapRemove_some_elim hs
    refine ⟨by rw [hre]; exact hx.symm, ?_, ?_⟩
    · rw [hre]
      simpa [Map.len] using swapRemove_length hs
    · intro i hi
      rw [hre]
      have hg := swapRemove_getElem? hs i
      rw [if_pos (by simpa [Map.len] using hi)] at hg
      simpa [Map.len] using hg
  · intro hc
    have hnone : findPos (fun v => eqb t v) s.backing = none := by
      have h1 := findPos_any (p := fun v => eqb t v) (l := s.backing)
      rw [show s.backing.any (fun v => eqb t v) = false from hc] at h1
      exact Option.not_isSome_iff_eq_none.1 (by simp [h1])
    constructor
    · simp [Set.take, hnone]
    · simp [Set.remove, Set.take, hnone]
  · intro pos hf
    have hpos : pos < s.backing.length := findPos_lt_length hf
    obtain ⟨x, l2, hs2⟩ := swapRemove_isSome hpos
    have hre : Set.take eqb s t = (some x, ⟨l2⟩) := by
      simp [Set.take, hf, hs2]
    obtain ⟨hx, -⟩ := swapRemove_some_elim hs2
    refine ⟨by rw [hre]; exact hx.symm, ?_, ?_, ?_⟩
    · rw [hre]
      simpa [Set.len] using swapRemove_length hs2
    · simp [Set.remove, hre]
    · intro i hi
      rw [hre]
      have hg := swapRemove_getElem? hs2 i
      rw [if_pos (by simpa [Set.len] using hi)] at hg
      simpa [Set.len] using hg

/-- Witness for C4: removing key 1 from a concrete three-pair map moves the
last pair into slot 0 (order not preserved) and shortens by one; taking an
absent value from a concrete set leaves it unchanged. -/
theorem c4_swap_removal_witness :
    Map.remove_entry eqb (⟨[(1, 10), (2, 20), (3, 30)]⟩ : Map Nat Nat) 1
        = (some (1, 10), ⟨[(3, 30), (2, 20)]⟩)
      ∧ (Map.remove_entry eqb
          (⟨[(1, 10), (2, 20), (3, 30)]⟩ : Map Nat Nat) 1).2.len = 2
      ∧ Set.take eqb (⟨[5]⟩ : Set Nat) 7 = (none, ⟨[5]⟩) := by
  have h := c4_swap_removal (⟨[(1, 10), (2, 20), (3, 30)]⟩ : Map Nat Nat) 1
    (⟨[5]⟩ : Set Nat) 7
  have hm := h.2.1 0 (by decide)
  refine ⟨rfl, ?_, (h.2.2.1 (by decide)).1⟩
  rw [hm.2.1]
  decide

/-- C5: `union(A, B)` consumed forward is exactly all of A in A's order
followed by the elements of B not contained in A in B's order; consequently,
for a set A with the uniqueness invariant, every element common to A and B
occurs exactly once in the union, contributed by A. -/
theorem c5_union [DecidableEq T] (A B : Set T) :
    Set.union eqb A B
        = A.backing ++ B.backing.filter (fun x => !Set.contains eqb A x)
      ∧ (Set.Unique eqb A → ∀ x, Set.contains eqb A x = true →
          Set.contains eqb B x = true →
          (Set.union eqb A B).count x = 1) := by
  constructor
  · unfold Set.union
    rw [differenceList_eq_filter]
  · intro hA x hxA _hxB
    unfold Set.union
    rw [differenceList_eq_filter, List.count_append]
    have hxmemA := (contains_eqb_iff A x).1 hxA
    have hcountA : A.backing.count x = 1 :=
      List.count_eq_one_of_mem ((setUnique_eqb_iff_nodup A).1 hA) hxmemA
    have hcountF :
        (B.backing.filter (fun y => !Set.contains eqb A y)).count x = 0 := by
      rw [List.count_eq_zero]
      intro hmem
      rw [List.mem_filter] at hmem
      rw [hxA] at hmem
      simp at hmem
    rw [hcountA, hcountF]

/-- Witness for C5: in `union({1,2}, {2,3})` the common element 2 appears
exactly once. -/
theorem c5_union_witness :
    (Set.union eqb (⟨[1, 2]⟩ : Set Nat) ⟨[2, 3]⟩).count 2 = 1 := by
  exact (c5_union (⟨[1, 2]⟩ : Set Nat) ⟨[2, 3]⟩).2
    (by unfold Set.Unique; decide) 2 (by decide) (by decide)

end MapVec
